import Mathlib

/-!
Verification of the turbos-clmm-sdk math and coin-selection core.

The TypeScript source is shallowly embedded:
* `Decimal` values (decimal.js, exact decimal arithmetic on the inputs that
  occur here) are embedded as `ℚ`;
* `BN` big integers and coin balances are embedded as `ℕ`;
* JavaScript signed integers (tick indices) are embedded as `ℤ`, with the
  JavaScript `%` operator embedded as `Int.tmod` (truncated remainder);
* fallible methods (`throw new Error(...)`) return `Except SdkError _`;
* `Decimal.toFixed(0)` uses decimal.js's default rounding mode
  `ROUND_HALF_UP` (round to nearest, ties away from zero), embedded as
  `roundHalfUp`; `Decimal.ceil`/`Decimal.floor` round toward `+∞` / `-∞`,
  embedded as `Int.ceil` / `Int.floor`.
-/

namespace Turbos

/-- The typed failures of the math/selection core (`throw new Error(...)`
sites in `pool.ts` and the spec's error kinds). -/
inductive SdkError
  | invalidSlippage
  | invalidPoolType
  | invalidPrice
deriving DecidableEq

/-- Rounding to the nearest integer, ties away from zero: decimal.js
`ROUND_HALF_UP`, the default mode used by `Decimal.toFixed(0)`. -/
def roundHalfUp (x : ℚ) : ℤ :=
  if 0 ≤ x then ⌊x + 1 / 2⌋ else -⌊1 / 2 - x⌋

/-- Embedding of `Pool.getMinimumAmountBySlippage` (pool.ts):
`ratio = 1 - slippage/100`; throws `invalid slippage range` when
`ratio.lte(0) || ratio.gt(1)`; otherwise returns
`origin.mul(ratio).toFixed(0)`. -/
def getMinimumAmountBySlippage (amount slippage : ℚ) : Except SdkError ℤ :=
  if 1 - slippage / 100 ≤ 0 ∨ 1 < 1 - slippage / 100 then .error .invalidSlippage
  else .ok (roundHalfUp (amount * (1 - slippage / 100)))

/-- Embedding of the tick adjustment in `Pool.getTickIndex` (pool.ts):
`tick -= tick % fee.tickSpacing`, with the JavaScript `%` operator, which
is the truncated remainder `Int.tmod`. -/
def snapTickToSpacing (tick tickSpacing : ℤ) : ℤ :=
  tick - Int.tmod tick tickSpacing

lemma roundHalfUp_intCast (d : ℤ) : roundHalfUp (d : ℚ) = d := by
  unfold roundHalfUp
  split
  · rw [add_comm, Int.floor_add_int]
    norm_num
  · rw [sub_eq_add_neg, ← Int.cast_neg, Int.floor_add_int]
    norm_num

/-- C3 (counterexample): the claim says the slippage guard returns
`floor(desired * ratio)`, but at `desired = 1000`, `slippage = 0.05` the
exact product is `999.5`, `toFixed(0)` rounds half-up to `1000`, while the
floor is `999`. -/
theorem getMinimumAmountBySlippage_not_floor :
    getMinimumAmountBySlippage 1000 (1 / 20) = .ok 1000 ∧
    ⌊(1000 : ℚ) * (1 - (1 / 20) / 100)⌋ = 999 ∧ (1000 : ℤ) ≠ 999 := by
  refine ⟨?_, ?_, by decide⟩
  · unfold getMinimumAmountBySlippage roundHalfUp
    rw [if_neg (by norm_num), if_pos (by norm_num)]
    rw [show (1000 : ℚ) * (1 - 1 / 20 / 100) + 1 / 2 = ((1000 : ℤ) : ℚ) by
      norm_num]
    rw [Int.floor_intCast]
  · rw [show (1000 : ℚ) * (1 - (1 / 20) / 100) = ((999 : ℤ) : ℚ) + 1 / 2 by
      norm_num]
    rw [Int.floor_int_add]
    norm_num

/-- C3 (amended): for every nonnegative desired amount and every slippage
whose `ratio = 1 - slippage/100` lies in `(0, 1]`,
`getMinimumAmountBySlippage` returns `desired * ratio` rounded to the
nearest integer with ties away from zero (decimal.js `toFixed(0)` under the
default `ROUND_HALF_UP` mode), not the floor; the concrete scenario
`getMinimumAmountBySlippage(1000, 1) = 990` still holds. -/
theorem getMinimumAmountBySlippage_half_up (amount slippage : ℚ)
    (_hamt : 0 ≤ amount)
    (hr0 : 0 < 1 - slippage / 100) (hr1 : 1 - slippage / 100 ≤ 1) :
    getMinimumAmountBySlippage amount slippage =
      .ok (roundHalfUp (amount * (1 - slippage / 100))) ∧
    getMinimumAmountBySlippage 1000 1 = .ok 990 := by
  constructor
  · unfold getMinimumAmountBySlippage
    rw [if_neg]
    push_neg
    exact ⟨hr0, hr1⟩
  · unfold getMinimumAmountBySlippage roundHalfUp
    rw [if_neg (by norm_num), if_pos (by norm_num)]
    rw [show (1000 : ℚ) * (1 - 1 / 100) + 1 / 2 = ((990 : ℤ) : ℚ) + 1 / 2 by
      norm_num]
    rw [Int.floor_int_add]
    norm_num

/-- C3 (witness): the amended theorem applied at the concrete scenario
`(1000, 1)` from the spec. -/
theorem getMinimumAmountBySlippage_half_up_witness :
    getMinimumAmountBySlippage 1000 1 = .ok 990 :=
  (getMinimumAmountBySlippage_half_up 1000 1 (by norm_num) (by norm_num)
    (by norm_num)).2

/-- C6: `getMinimumAmountBySlippage` fails with the invalid-slippage error
if and only if `ratio = 1 - slippage/100` satisfies `ratio ≤ 0` or
`ratio > 1`, i.e. exactly for slippage outside `[0, 100)`; slippage `0`
returns the desired (integer) amount unchanged, and slippage `100` and
`-5` are rejected. -/
theorem getMinimumAmountBySlippage_error_iff (d : ℤ) (s : ℚ) :
    (getMinimumAmountBySlippage d s = .error .invalidSlippage ↔
      (1 - s / 100 ≤ 0 ∨ 1 < 1 - s / 100)) ∧
    (getMinimumAmountBySlippage d s = .error .invalidSlippage ↔
      (s < 0 ∨ 100 ≤ s)) ∧
    ((∃ v, getMinimumAmountBySlippage d s = .ok v) ↔ (0 ≤ s ∧ s < 100)) ∧
    getMinimumAmountBySlippage d 0 = .ok d ∧
    getMinimumAmountBySlippage d 100 = .error .invalidSlippage ∧
    getMinimumAmountBySlippage d (-5) = .error .invalidSlippage := by
  have hcond : (1 - s / 100 ≤ 0 ∨ 1 < 1 - s / 100) ↔ (s < 0 ∨ 100 ≤ s) := by
    constructor
    · rintro (h | h)
      · right; linarith
      · left; linarith
    · rintro (h | h)
      · right; linarith
      · left; linarith
  refine ⟨?_, ?_, ?_, ?_, ?_, ?_⟩
  · unfold getMinimumAmountBySlippage
    split
    · simp only [true_iff]
      assumption
    · simp only [reduceCtorEq, false_iff]
      assumption
  · unfold getMinimumAmountBySlippage
    split
    · simp only [true_iff]
      rw [← hcond]
      assumption
    · simp only [reduceCtorEq, false_iff]
      rw [← hcond]
      assumption
  · unfold getMinimumAmountBySlippage
    split
    · simp only [reduceCtorEq, exists_false, false_iff]
      rw [not_and_or, not_le, not_lt]
      rw [hcond] at *
      tauto
    · simp only [Except.ok.injEq, exists_eq', true_iff]
      rename_i h
      rw [hcond] at h
      push_neg at h
      exact h
  · unfold getMinimumAmountBySlippage
    rw [if_neg (by norm_num)]
    norm_num [roundHalfUp_intCast]
  · unfold getMinimumAmountBySlippage
    rw [if_pos (by norm_num)]
  · unfold getMinimumAmountBySlippage
    rw [if_pos (by norm_num)]

/-- C5 (counterexample): `tick -= tick % tickSpacing` with JavaScript `%`
(truncated remainder) does not snap down for negative ticks: at
`tick = -7`, `tickSpacing = 10` the adjusted tick is `0`, while the nearest
multiple of `10` below `-7` is `-10`. -/
theorem snapTickToSpacing_not_down :
    snapTickToSpacing (-7) 10 = 0 ∧ 10 * Int.fdiv (-7) 10 = -10 ∧
    ¬ snapTickToSpacing (-7) 10 ≤ -7 := by decide

/-- C5 (amended): for every derived tick and positive spacing the adjusted
tick is an exact multiple of the spacing (`tick % tickSpacing == 0`), and
it is the multiple obtained by truncation toward zero,
`tickSpacing * (tick / tickSpacing)` under truncated division; it snaps
down (toward `-∞`) only for nonnegative ticks. -/
theorem snapTickToSpacing_multiple (t s : ℤ) (hs : 0 < s) :
    Int.tmod (snapTickToSpacing t s) s = 0 ∧
    s ∣ snapTickToSpacing t s ∧
    snapTickToSpacing t s = s * Int.tdiv t s ∧
    (0 ≤ t → snapTickToSpacing t s = s * Int.fdiv t s ∧
      snapTickToSpacing t s ≤ t) := by
  have heq : snapTickToSpacing t s = s * Int.tdiv t s := by
    unfold snapTickToSpacing
    rw [Int.tmod_def]
    ring
  refine ⟨?_, ?_, heq, ?_⟩
  · rw [heq, mul_comm, Int.mul_tmod_left]
  · exact ⟨Int.tdiv t s, heq⟩
  · intro ht
    constructor
    · rw [heq, Int.tdiv_eq_ediv ht hs.le, Int.fdiv_eq_ediv _ hs.le]
    · unfold snapTickToSpacing
      have : 0 ≤ Int.tmod t s := Int.tmod_nonneg s (by omega)
      omega

/-- C5 (witness): the amended theorem applied at `tick = 7`,
`tickSpacing = 10`. -/
theorem snapTickToSpacing_multiple_witness :
    Int.tmod (snapTickToSpacing 7 10) 10 = 0 :=
  (snapTickToSpacing_multiple 7 10 (by decide)).1

/-- Modelled from the spec: `MathUtil.toX64_Decimal` (`src/lib/math.ts` is
not under `src/`); the spec defines `toX64(value) = value * 2^64`, exact. -/
def toX64 (value : ℚ) : ℚ := value * 2 ^ 64

/-- Modelled from the spec: `MathUtil.fromX64_Decimal` (`src/lib/math.ts`
is not under `src/`); the spec defines `fromX64(value) = value / 2^64`. -/
def fromX64 (value : ℚ) : ℚ := value / 2 ^ 64

/-- Embedding of the case analysis of `Pool.getTokenAmountsFromLiquidity`
(pool.ts): the exact pre-rounding `amountA`/`amountB` pair, computed from
the three `BN` sqrt prices and the liquidity magnitude. The branches
compare the raw `SqrtPriceX64` magnitudes exactly as the source does. -/
def amountsFromLiquidity (currentSqrtPrice lowerSqrtPrice upperSqrtPrice
    liquidity : ℕ) : ℚ × ℚ :=
  if currentSqrtPrice < lowerSqrtPrice then
    (toX64 liquidity * ((upperSqrtPrice : ℚ) - (lowerSqrtPrice : ℚ)) /
        ((lowerSqrtPrice : ℚ) * (upperSqrtPrice : ℚ)),
      0)
  else if currentSqrtPrice < upperSqrtPrice then
    (toX64 liquidity * ((upperSqrtPrice : ℚ) - (currentSqrtPrice : ℚ)) /
        ((currentSqrtPrice : ℚ) * (upperSqrtPrice : ℚ)),
      fromX64 ((liquidity : ℚ) *
        ((currentSqrtPrice : ℚ) - (lowerSqrtPrice : ℚ))))
  else
    (0,
      fromX64 ((liquidity : ℚ) *
        ((upperSqrtPrice : ℚ) - (lowerSqrtPrice : ℚ))))

/-- Embedding of `Pool.getTokenAmountsFromLiquidity` (pool.ts): optional
`liquidity` defaults to `new BN(100_000_000)` via `options.liquidity ||`,
optional `ceil` defaults to `true` via `options.ceil !== false`; the two
exact amounts are rounded once at the end (`Decimal.ceil` toward `+∞` or
`Decimal.floor` toward `-∞`) and converted to `BN`. -/
def getTokenAmountsFromLiquidity (currentSqrtPrice lowerSqrtPrice
    upperSqrtPrice : ℕ) (liquidity : Option ℕ) (ceilMode : Option Bool) :
    ℤ × ℤ :=
  let raw := amountsFromLiquidity currentSqrtPrice lowerSqrtPrice
    upperSqrtPrice (liquidity.getD 100000000)
  if ceilMode ≠ some false then (⌈raw.1⌉, ⌈raw.2⌉) else (⌊raw.1⌋, ⌊raw.2⌋)

/-- C2: under `0 < lower ≤ upper` and positive current price, the token
amounts follow the three mutually exclusive price-ordered cases of the
spec: `current < lower` gives
`(toX64(L)*(pUpper-pLower)/(pLower*pUpper), 0)`;
`lower ≤ current < upper` gives
`(toX64(L)*(pUpper-pCurrent)/(pCurrent*pUpper), fromX64(L*(pCurrent-pLower)))`;
`current ≥ upper` gives `(0, fromX64(L*(pUpper-pLower)))`; and
`getTokenAmountsFromLiquidity` returns these amounts rounded only at the
final integer conversion. -/
theorem getTokenAmountsFromLiquidity_cases (c l u L : ℕ)
    (_hl : 0 < l) (_hc : 0 < c) (hlu : l ≤ u) :
    (c < l → amountsFromLiquidity c l u L =
      (toX64 L * ((u : ℚ) - (l : ℚ)) / ((l : ℚ) * (u : ℚ)), 0)) ∧
    (l ≤ c → c < u → amountsFromLiquidity c l u L =
      (toX64 L * ((u : ℚ) - (c : ℚ)) / ((c : ℚ) * (u : ℚ)),
        fromX64 ((L : ℚ) * ((c : ℚ) - (l : ℚ))))) ∧
    (u ≤ c → amountsFromLiquidity c l u L =
      (0, fromX64 ((L : ℚ) * ((u : ℚ) - (l : ℚ))))) ∧
    (∀ m : Bool, getTokenAmountsFromLiquidity c l u (some L) (some m) =
      (if m then ⌈(amountsFromLiquidity c l u L).1⌉
        else ⌊(amountsFromLiquidity c l u L).1⌋,
       if m then ⌈(amountsFromLiquidity c l u L).2⌉
        else ⌊(amountsFromLiquidity c l u L).2⌋)) := by
  refine ⟨?_, ?_, ?_, ?_⟩
  · intro h
    unfold amountsFromLiquidity
    rw [if_pos h]
  · intro h1 h2
    unfold amountsFromLiquidity
    rw [if_neg (by omega), if_pos h2]
  · intro h
    unfold amountsFromLiquidity
    rw [if_neg (by omega), if_neg (by omega)]
  · intro m
    unfold getTokenAmountsFromLiquidity
    cases m <;> simp

/-- C2 (witness): the case theorem applied at concrete sqrt prices
`current = 2 < lower = 3 ≤ upper = 4` with liquidity `5`. -/
theorem getTokenAmountsFromLiquidity_cases_witness :
    amountsFromLiquidity 2 3 4 5 =
      (toX64 5 * ((4 : ℚ) - (3 : ℚ)) / ((3 : ℚ) * (4 : ℚ)), 0) :=
  (getTokenAmountsFromLiquidity_cases 2 3 4 5 (by decide) (by decide)
    (by decide)).1 (by decide)

/-- C9: an omitted `liquidity` option is the reference constant
`100_000_000` (`1e8`), an omitted `ceil` option defaults to `true`, and
the rounding mode is applied to each exact amount only at the final
integer conversion: `ceil` rounds each amount up, `floor` rounds each
amount down. -/
theorem getTokenAmountsFromLiquidity_defaults (c l u : ℕ) :
    (∀ m, getTokenAmountsFromLiquidity c l u none m =
      getTokenAmountsFromLiquidity c l u (some 100000000) m) ∧
    (∀ liq, getTokenAmountsFromLiquidity c l u liq none =
      getTokenAmountsFromLiquidity c l u liq (some true)) ∧
    (∀ liq : Option ℕ,
      getTokenAmountsFromLiquidity c l u liq (some true) =
        (⌈(amountsFromLiquidity c l u (liq.getD 100000000)).1⌉,
         ⌈(amountsFromLiquidity c l u (liq.getD 100000000)).2⌉) ∧
      getTokenAmountsFromLiquidity c l u liq (some false) =
        (⌊(amountsFromLiquidity c l u (liq.getD 100000000)).1⌋,
         ⌊(amountsFromLiquidity c l u (liq.getD 100000000)).2⌋)) := by
  refine ⟨fun m => rfl, fun liq => ?_, fun liq => ⟨?_, ?_⟩⟩
  · unfold getTokenAmountsFromLiquidity
    simp
  · unfold getTokenAmountsFromLiquidity
    simp
  · unfold getTokenAmountsFromLiquidity
    simp

/-- One spendable coin object as returned by `provider.getCoins`:
`coinObjectId` and `balance`. -/
structure CoinRecord where
  id : String
  balance : ℕ
deriving DecidableEq

/-- The number of trailing bits an IEEE-754 double drops from `n`: the
smallest `k` with `n / 2^k < 2^53` (so `k = e - 52` for
`2^e ≤ n < 2^(e+1)`, `e ≥ 53`, and `k = 0` for exactly representable
`n < 2^53`). The first argument is fuel; `n` itself suffices, since each
step halves `n`. -/
def exponentAux : ℕ → ℕ → ℕ
  | 0, _ => 0
  | fuel + 1, n => if n < 2 ^ 53 then 0 else exponentAux fuel (n / 2) + 1

/-- The JavaScript `Number(...)` coercion of a nonnegative integer (a u64
balance string): round to nearest multiple of the unit in the last place
`2^k`, ties to the even 53-bit significand (IEEE-754 binary64
round-to-nearest-even; u64 magnitudes never overflow a double). Distinct
balances at or above `2^53` may coerce to the same value. -/
def floatApprox (n : ℕ) : ℕ :=
  let k := exponentAux n n
  if k = 0 then n
  else
    let ulp := 2 ^ k
    let q := n / ulp
    let r := n % ulp
    if 2 * r < ulp then q * ulp
    else if ulp < 2 * r then (q + 1) * ulp
    else if q % 2 = 0 then q * ulp else (q + 1) * ulp

/-- The order imposed by the comparator
`(a, b) => Number(b.balance) - Number(a.balance)`: `a` may stay before `b`
when the comparator is `≤ 0`. Both balances pass through the double
coercion `floatApprox` before the subtraction, and the sign of the double
subtraction of two doubles is exact, so the comparator is `≤ 0` exactly
when `floatApprox b.balance ≤ floatApprox a.balance` (descending coerced
balances; distinct balances `≥ 2^53` can tie). -/
def balGe (a b : CoinRecord) : Prop :=
  floatApprox b.balance ≤ floatApprox a.balance

instance : DecidableRel balGe := fun a b =>
  inferInstanceAs (Decidable (floatApprox b.balance ≤ floatApprox a.balance))

instance : IsTotal CoinRecord balGe :=
  ⟨fun a b => by unfold balGe; exact Nat.le_total _ _⟩

instance : IsTrans CoinRecord balGe :=
  ⟨fun _ _ _ h1 h2 => le_trans h2 h1⟩

/-- Embedding of `coins.sort((a, b) => Number(b.balance) - Number(a.balance))`
in `Pool.selectCoinIds`: `Array.prototype.sort` is required to be stable,
and the comparator is consistent, so the result is the unique stable
reordering descending in the double-coerced balances, which insertion sort
under `balGe` computes. -/
def sortByBalanceDesc (coins : List CoinRecord) : List CoinRecord :=
  List.insertionSort balGe coins

/-- Total balance of a list of coin records. -/
def sumBalances (coins : List CoinRecord) : ℕ :=
  (coins.map (fun c => c.balance)).sum

/-- Embedding of the accumulation loop of `Pool.selectCoinIds`: push the
coin id, add its balance to the running total, and break as soon as the
total reaches `needAmount`. -/
def selectLoop (needAmount : ℕ) : List CoinRecord → ℕ → List String
  | [], _ => []
  | coin :: rest, totalAmount =>
    coin.id ::
      (if needAmount ≤ totalAmount + coin.balance then []
       else selectLoop needAmount rest (totalAmount + coin.balance))

/-- Embedding of `Pool.selectCoinIds` (pool.ts) after the paginated coin
fetch: sort all records by balance descending (stable) and accumulate ids
until the running sum covers `needAmount`. -/
def selectCoinIds (coins : List CoinRecord) (needAmount : ℕ) : List String :=
  selectLoop needAmount (sortByBalanceDesc coins) 0

lemma sumBalances_nil : sumBalances [] = 0 := rfl

lemma sumBalances_cons (c : CoinRecord) (l : List CoinRecord) :
    sumBalances (c :: l) = c.balance + sumBalances l := by
  simp [sumBalances]

lemma selectLoop_spec (needAmount : ℕ) (l : List CoinRecord) :
    ∀ totalAmount : ℕ, totalAmount < needAmount →
    ∃ k, k ≤ l.length ∧
      selectLoop needAmount l totalAmount =
        (l.take k).map (fun c => c.id) ∧
      (∀ i, i < k → totalAmount + sumBalances (l.take i) < needAmount) ∧
      (needAmount ≤ totalAmount + sumBalances (l.take k) ∨ k = l.length) := by
  induction l with
  | nil =>
    intro total _
    exact ⟨0, by simp [selectLoop]⟩
  | cons coin rest ih =>
    intro total htotal
    by_cases hstop : needAmount ≤ total + coin.balance
    · refine ⟨1, by simp, ?_, ?_, ?_⟩
      · simp [selectLoop, hstop]
      · intro i hi
        interval_cases i
        simpa [sumBalances_nil] using htotal
      · left
        simpa [List.take_succ_cons, sumBalances_cons, sumBalances_nil,
          ← Nat.add_assoc] using hstop
    · push_neg at hstop
      obtain ⟨k, hk, hsel, hlt, hend⟩ := ih (total + coin.balance) hstop
      refine ⟨k + 1, by simpa using hk, ?_, ?_, ?_⟩
      · simp only [selectLoop]
        rw [if_neg (show ¬ needAmount ≤ total + coin.balance by omega),
          hsel, List.take_succ_cons, List.map_cons]
      · intro i hi
        match i with
        | 0 => simpa [sumBalances_nil] using htotal
        | j + 1 =>
          have hj : j < k := by omega
          have := hlt j hj
          simpa [List.take_succ_cons, sumBalances_cons, ← Nat.add_assoc]
            using this
      · rcases hend with h | h
        · left
          simpa [List.take_succ_cons, sumBalances_cons, ← Nat.add_assoc]
            using h
        · right
          simp [h]

lemma sortByBalanceDesc_stable (coins : List CoinRecord) (b : ℕ) :
    (sortByBalanceDesc coins).filter (fun c => floatApprox c.balance == b) =
      coins.filter (fun c => floatApprox c.balance == b) := by
  have hpair : (coins.filter
      (fun c => floatApprox c.balance == b)).Pairwise balGe := by
    apply List.pairwise_of_forall_mem_list
    intro x hx y hy
    have hxb := (List.mem_filter.mp hx).2
    have hyb := (List.mem_filter.mp hy).2
    simp only [beq_iff_eq] at hxb hyb
    unfold balGe
    omega
  have hsub : (coins.filter (fun c => floatApprox c.balance == b)).Sublist
      (sortByBalanceDesc coins) :=
    List.sublist_insertionSort hpair (List.filter_sublist coins)
  have hsub2 : ((coins.filter (fun c => floatApprox c.balance == b)).filter
      (fun c => floatApprox c.balance == b)).Sublist
      ((sortByBalanceDesc coins).filter
        (fun c => floatApprox c.balance == b)) :=
    hsub.filter _
  rw [List.filter_filter] at hsub2
  simp only [Bool.and_self] at hsub2
  have hlen : ((sortByBalanceDesc coins).filter
      (fun c => floatApprox c.balance == b)).length =
      (coins.filter (fun c => floatApprox c.balance == b)).length :=
    ((List.perm_insertionSort balGe coins).filter _).length_eq
  exact (hsub2.eq_of_length hlen.symm).symm

/-- C1 (counterexample): the claim fails twice. At target `0` with one
coin of balance `5` the selector returns that coin, so its non-empty
selection does not satisfy the strict prefix-sum bound (the sum of all but
the last selected record, `0`, is not `< 0`). And the comparator coerces
balances through IEEE doubles, so at balances `2^53` (arriving first) and
`2^53 + 1` with target `2^53 + 1` the two balances tie after coercion,
arrival order is kept, and the selector returns both ids — not the
minimal descending-by-exact-balance prefix `["b"]` that the claim
demands. -/
theorem selectCoinIds_zero_target_breaks_prefix_bound :
    selectCoinIds [⟨"a", 5⟩] 0 = ["a"] ∧
    sumBalances ((sortByBalanceDesc [⟨"a", 5⟩]).take
      ((selectCoinIds [⟨"a", 5⟩] 0).length - 1)) = 0 ∧
    ¬ (0 : ℕ) < 0 ∧
    selectCoinIds [⟨"a", 2 ^ 53⟩, ⟨"b", 2 ^ 53 + 1⟩] (2 ^ 53 + 1) =
      ["a", "b"] ∧
    (["a", "b"] : List String) ≠ ["b"] ∧
    2 ^ 53 + 1 ≤ sumBalances [(⟨"b", 2 ^ 53 + 1⟩ : CoinRecord)] := by
  exact ⟨by decide, by decide, by decide, by decide, by decide, by decide⟩

/-- C1 (amended): for every list of coin records and every positive
target, the selector returns the ids of a prefix of the program's sorted
order — the stable reordering descending in the IEEE-double coercion of
the balances, so records whose balances tie after coercion (including
distinct balances at or above `2^53`) keep arrival order: every proper
prefix of the selection sums to strictly less than the target, the whole
selection sums to at least the target unless the entire list was
exhausted, and in the exhausted case all records are returned without an
error. -/
theorem selectCoinIds_minimal_cover (coins : List CoinRecord)
    (needAmount : ℕ) (hpos : 0 < needAmount) :
    selectCoinIds coins needAmount =
      ((sortByBalanceDesc coins).take
        (selectCoinIds coins needAmount).length).map (fun c => c.id) ∧
    sumBalances ((sortByBalanceDesc coins).take
      ((selectCoinIds coins needAmount).length - 1)) < needAmount ∧
    (needAmount ≤ sumBalances ((sortByBalanceDesc coins).take
        (selectCoinIds coins needAmount).length) ∨
      (selectCoinIds coins needAmount).length =
        (sortByBalanceDesc coins).length) ∧
    (sortByBalanceDesc coins).Pairwise balGe ∧
    (sortByBalanceDesc coins).Perm coins ∧
    (∀ b : ℕ, (sortByBalanceDesc coins).filter
        (fun c => floatApprox c.balance == b) =
      coins.filter (fun c => floatApprox c.balance == b)) := by
  obtain ⟨k, hk, hsel, hlt, hend⟩ :=
    selectLoop_spec needAmount (sortByBalanceDesc coins) 0 hpos
  have hlen : (selectCoinIds coins needAmount).length = k := by
    unfold selectCoinIds
    rw [hsel, List.length_map, List.length_take]
    omega
  unfold selectCoinIds at hlen ⊢
  rw [hlen]
  refine ⟨hsel, ?_, ?_, ?_, List.perm_insertionSort balGe coins,
    fun b => sortByBalanceDesc_stable coins b⟩
  · match k with
    | 0 => simpa [sumBalances_nil] using hpos
    | j + 1 => simpa using hlt j (by omega)
  · rcases hend with h | h
    · left
      simpa using h
    · right
      exact h
  · exact List.sorted_insertionSort balGe coins

/-- C1 (witness): the amended theorem applied to the spec's concrete
scenario: balances `[(A, 30), (B, 50), (C, 20)]` with target `60` select
`[B, A]` (descending order `B(50), A(30), C(20)`, stop at `80 ≥ 60`). -/
theorem selectCoinIds_minimal_cover_witness :
    selectCoinIds [⟨"A", 30⟩, ⟨"B", 50⟩, ⟨"C", 20⟩] 60 = ["B", "A"] ∧
    selectCoinIds [⟨"A", 30⟩, ⟨"B", 50⟩, ⟨"C", 20⟩] 60 =
      ((sortByBalanceDesc [⟨"A", 30⟩, ⟨"B", 50⟩, ⟨"C", 20⟩]).take
        (selectCoinIds [⟨"A", 30⟩, ⟨"B", 50⟩, ⟨"C", 20⟩] 60).length).map
        (fun c => c.id) :=
  ⟨by decide,
    (selectCoinIds_minimal_cover [⟨"A", 30⟩, ⟨"B", 50⟩, ⟨"C", 20⟩] 60
      (by decide)).1⟩

/-- C4 (counterexample): with target `0` and a non-empty coin list the
selector returns one coin id, not the empty sequence: the loop pushes the
first sorted record before checking `totalAmount.gte(needAmount)`. That
record is the first under the double-coerced comparator, not necessarily
the exact-largest: with balances `2^53` (arriving first) and `2^53 + 1`
the coercion ties them and `"a"` is returned. -/
theorem selectCoinIds_zero_target_nonempty :
    selectCoinIds [⟨"a", 5⟩] 0 = ["a"] ∧ (["a"] : List String) ≠ [] ∧
    selectCoinIds [⟨"a", 2 ^ 53⟩, ⟨"b", 2 ^ 53 + 1⟩] 0 = ["a"] ∧
    (2 ^ 53 : ℕ) < 2 ^ 53 + 1 := by
  exact ⟨by decide, by decide, by decide, by decide⟩

/-- C4 (amended): if the target is zero the selector returns the id of the
first record of the program's sorted order (descending in the
IEEE-double-coerced balances, coerced ties in arrival order) for every
non-empty input list — a single record, largest only up to the double
coercion — and the empty sequence exactly when the input list is empty. -/
theorem selectCoinIds_zero_target (coins : List CoinRecord) :
    selectCoinIds coins 0 =
      ((sortByBalanceDesc coins).take 1).map (fun c => c.id) := by
  unfold selectCoinIds
  cases h : sortByBalanceDesc coins with
  | nil => simp [selectLoop]
  | cons coin rest => simp [selectLoop]

/-- Embedding of `String.prototype.indexOf` on character lists: the first
index at which `needle` occurs as a contiguous substring of `hay`, or
`-1`; the accumulator is the index of the head of `hay`. -/
def jsIndexOfAux (needle : List Char) : List Char → ℤ → ℤ
  | [], i => if needle.isPrefixOf ([] : List Char) then i else -1
  | c :: t, i =>
    if needle.isPrefixOf (c :: t) then i else jsIndexOfAux needle t (i + 1)

/-- Embedding of `hay.indexOf(needle)`. -/
def jsIndexOf (hay needle : List Char) : ℤ := jsIndexOfAux needle hay 0

/-- Embedding of `String.prototype.toLowerCase` (character-wise; all
strings of interest are ASCII). -/
def toLowerString (s : List Char) : List Char := s.map Char.toLower

/-- Embedding of `Pool.isSUI` (pool.ts):
`coinType.toLowerCase().indexOf('sui') > -1`. -/
def isSUI (coinType : List Char) : Bool :=
  decide (-1 < jsIndexOf (toLowerString coinType) ['s', 'u', 'i'])

/-- The two funding shapes produced by `Pool.stripGas` (pool.ts): a single
coin split off the gas coin, or the selected coin objects. -/
inductive FundingSource
  | gasSplit (amount : ℕ)
  | objectCoins (ids : List String)
deriving DecidableEq

/-- Embedding of `Pool.stripGas` (pool.ts): SUI-classified coin types are
funded by `txb.splitCoins(txb.gas, [amount])`, all others by the selected
coin object ids. -/
def stripGas (coinIds : List String) (coinType : List Char) (amount : ℕ) :
    FundingSource :=
  if isSUI coinType then .gasSplit amount else .objectCoins coinIds

lemma jsIndexOfAux_pos_iff (needle : List Char) :
    ∀ (hay : List Char) (i : ℤ), 0 ≤ i →
      (-1 < jsIndexOfAux needle hay i ↔
        ∃ pre post, hay = pre ++ needle ++ post) := by
  intro hay
  induction hay with
  | nil =>
    intro i hi
    unfold jsIndexOfAux
    split
    · rename_i h
      have hn : needle = [] :=
        List.prefix_nil.mp (List.isPrefixOf_iff_prefix.mp h)
      constructor
      · intro _
        exact ⟨[], [], by simp [hn]⟩
      · intro _
        omega
    · rename_i h
      constructor
      · intro habs
        omega
      · rintro ⟨pre, post, hsplit⟩
        exfalso
        apply h
        have h1 := List.append_eq_nil.mp hsplit.symm
        have h2 := List.append_eq_nil.mp h1.1
        rw [List.isPrefixOf_iff_prefix, h2.2]
  | cons c t ih =>
    intro i hi
    unfold jsIndexOfAux
    split
    · rename_i h
      rw [List.isPrefixOf_iff_prefix] at h
      obtain ⟨post, hpost⟩ := h
      constructor
      · intro _
        exact ⟨[], post, by simpa using hpost.symm⟩
      · intro _
        omega
    · rename_i h
      rw [ih (i + 1) (by omega)]
      constructor
      · rintro ⟨pre, post, hsplit⟩
        exact ⟨c :: pre, post, by simp [hsplit]⟩
      · rintro ⟨pre, post, hsplit⟩
        match pre with
        | [] =>
          exfalso
          apply h
          rw [List.isPrefixOf_iff_prefix]
          exact ⟨post, by simpa using hsplit.symm⟩
        | c' :: pre' =>
          simp only [List.cons_append] at hsplit
          exact ⟨pre', post, (List.cons.inj hsplit).2⟩

/-- C10: `isSUI` accepts a coin type exactly when its lowercased text
contains `"sui"` as a contiguous substring — so non-canonical types such
as `"suik"` (and bare `"sui"`) are classified as SUI while `"suki"` is
not — and every SUI-classified type is funded through the gas-coin split
in `stripGas`, every other type through its selected coin objects. -/
theorem isSUI_substring_spec (s : List Char) :
    (isSUI s = true ↔
      ∃ pre post, toLowerString s = pre ++ ['s', 'u', 'i'] ++ post) ∧
    isSUI ['s', 'u', 'i', 'k'] = true ∧
    isSUI ['s', 'u', 'i'] = true ∧
    isSUI ['s', 'u', 'k', 'i'] = false ∧
    (∀ ids amt, isSUI s = true → stripGas ids s amt = .gasSplit amt) ∧
    (∀ ids amt, isSUI s = false → stripGas ids s amt = .objectCoins ids) := by
  refine ⟨?_, by decide, by decide, by decide, ?_, ?_⟩
  · unfold isSUI jsIndexOf
    rw [decide_eq_true_iff]
    exact jsIndexOfAux_pos_iff ['s', 'u', 'i'] (toLowerString s) 0 le_rfl
  · intro ids amt h
    unfold stripGas
    rw [if_pos h]
  · intro ids amt h
    unfold stripGas
    rw [if_neg (by simp [h])]

/-- C10 (witness): the theorem applied at the bare type `"sui"`, routing a
fund of `5` through the gas split. -/
theorem isSUI_substring_spec_witness :
    stripGas ["0xabc"] ['s', 'u', 'i'] 5 = .gasSplit 5 :=
  (isSUI_substring_spec ['s', 'u', 'i']).2.2.2.2.1 ["0xabc"] 5 (by decide)

/-- The regex word-character class `\w` of `/(\w+::\w+::\w+)/g`:
`[A-Za-z0-9_]`. -/
def isWordChar (c : Char) : Bool := c.isAlphanum || c == '_'

/-- One attempt of the regex `/(\w+::\w+::\w+)/` anchored at the start of
`s`: greedy maximal word runs separated by literal `::`; returns the
matched text and the remaining input. (No backtracking arises: shortening
a maximal `\w+` run leaves a word character where `:` is required.) -/
def matchSegAt (s : List Char) : Option (List Char × List Char) :=
  let w1 := s.takeWhile isWordChar
  if w1 = [] then none
  else
    match s.dropWhile isWordChar with
    | ':' :: ':' :: r2 =>
      let w2 := r2.takeWhile isWordChar
      if w2 = [] then none
      else
        match r2.dropWhile isWordChar with
        | ':' :: ':' :: r4 =>
          let w3 := r4.takeWhile isWordChar
          if w3 = [] then none
          else
            some (w1 ++ ':' :: ':' :: (w2 ++ ':' :: ':' :: w3),
              r4.dropWhile isWordChar)
        | _ => none
    | _ => none

/-- The global scan of `type.match(/(\w+::\w+::\w+)/g)`: at each position
try the anchored match; on success emit it and continue after its end, on
failure advance one character. Fuel-indexed (the fuel bounds the number of
steps; `s.length` suffices, since every step consumes at least one
character). -/
def scanSegs : ℕ → List Char → List (List Char)
  | 0, _ => []
  | _ + 1, [] => []
  | fuel + 1, c :: rest =>
    match matchSegAt (c :: rest) with
    | some (m, r) => m :: scanSegs fuel r
    | none => scanSegs fuel rest

/-- All matches of `/(\w+::\w+::\w+)/g` in `s`, in order. -/
def typeMatches (s : List Char) : List (List Char) := scanSegs s.length s

/-- A fully-filled `pkg::module::name` segment: three non-empty maximal
word-character runs joined by `::`. -/
def SegShape (m : List Char) : Prop :=
  ∃ w1 w2 w3 : List Char, w1 ≠ [] ∧ w2 ≠ [] ∧ w3 ≠ [] ∧
    (∀ c ∈ w1, isWordChar c = true) ∧ (∀ c ∈ w2, isWordChar c = true) ∧
    (∀ c ∈ w3, isWordChar c = true) ∧
    m = w1 ++ ':' :: ':' :: (w2 ++ ':' :: ':' :: w3)

/-- Embedding of `Pool.parsePoolType` / `Pool.getPoolTypeArguments`
(pool.ts): run `type.match(/(\w+::\w+::\w+)/g)`, throw `Invalid pool type`
unless exactly four matches are found, and return matches `1`, `2`, `3`
(token A, token B, fee type; match `0` is the pool type itself). -/
def parsePoolType (poolType : List Char) :
    Except SdkError (List Char × List Char × List Char) :=
  if h : (typeMatches poolType).length = 4 then
    .ok ((typeMatches poolType).get ⟨1, by omega⟩,
      (typeMatches poolType).get ⟨2, by omega⟩,
      (typeMatches poolType).get ⟨3, by omega⟩)
  else .error .invalidPoolType

lemma matchSegAt_shape {s m r : List Char}
    (h : matchSegAt s = some (m, r)) : SegShape m ∧ r.length < s.length := by
  unfold matchSegAt at h
  by_cases h1 : s.takeWhile isWordChar = []
  · rw [if_pos h1] at h
    exact absurd h (by simp)
  · rw [if_neg h1] at h
    split at h
    · rename_i r2 heq1
      by_cases h2 : r2.takeWhile isWordChar = []
      · rw [if_pos h2] at h
        exact absurd h (by simp)
      · rw [if_neg h2] at h
        split at h
        · rename_i r4 heq2
          by_cases h3 : r4.takeWhile isWordChar = []
          · rw [if_pos h3] at h
            exact absurd h (by simp)
          · rw [if_neg h3] at h
            obtain ⟨hm, hr⟩ := Prod.mk.inj (Option.some.inj h)
            constructor
            · refine ⟨s.takeWhile isWordChar, r2.takeWhile isWordChar,
                r4.takeWhile isWordChar, h1, h2, h3,
                fun c hc => List.mem_takeWhile_imp hc,
                fun c hc => List.mem_takeWhile_imp hc,
                fun c hc => List.mem_takeWhile_imp hc, hm.symm⟩
            · have e1 : s.length =
                  (s.takeWhile isWordChar).length +
                    (s.dropWhile isWordChar).length := by
                conv_lhs => rw [← List.takeWhile_append_dropWhile
                  (p := isWordChar) (l := s)]
                rw [List.length_append]
              have e2 : r2.length =
                  (r2.takeWhile isWordChar).length +
                    (r2.dropWhile isWordChar).length := by
                conv_lhs => rw [← List.takeWhile_append_dropWhile
                  (p := isWordChar) (l := r2)]
                rw [List.length_append]
              have e3 : r4.length =
                  (r4.takeWhile isWordChar).length +
                    (r4.dropWhile isWordChar).length := by
                conv_lhs => rw [← List.takeWhile_append_dropWhile
                  (p := isWordChar) (l := r4)]
                rw [List.length_append]
              have l1 : 0 < (s.takeWhile isWordChar).length :=
                List.length_pos.mpr h1
              have l2 : 0 < (r2.takeWhile isWordChar).length :=
                List.length_pos.mpr h2
              have hdrop1 : (s.dropWhile isWordChar).length = r2.length + 2 := by
                rw [heq1]
                simp
              have hdrop2 : (r2.dropWhile isWordChar).length =
                  r4.length + 2 := by
                rw [heq2]
                simp
              rw [← hr]
              omega
        · exact absurd h (by simp)
    · exact absurd h (by simp)

lemma scanSegs_shape :
    ∀ (fuel : ℕ) (s m : List Char), m ∈ scanSegs fuel s → SegShape m := by
  intro fuel
  induction fuel with
  | zero =>
    intro s m hm
    simp [scanSegs] at hm
  | succ f ih =>
    intro s m hm
    match s with
    | [] => simp [scanSegs] at hm
    | c :: rest =>
      rw [scanSegs] at hm
      cases hmatch : matchSegAt (c :: rest) with
      | some pr =>
        rw [hmatch] at hm
        rcases List.mem_cons.mp hm with h | h
        · subst h
          exact (matchSegAt_shape (m := pr.1) (r := pr.2)
            (by rw [hmatch])).1
        · exact ih _ _ h
      | none =>
        rw [hmatch] at hm
        exact ih _ _ hm

/-- C7: pool-type parsing either returns a structured
`(tokenA, tokenB, feeType)` triple or fails with the invalid-pool-type
error; it fails exactly when the regex scan does not find exactly four
`pkg::module::name` segments in the type string, and on success every
component of the triple is a fully-filled `w+::w+::w+` segment. -/
theorem parsePoolType_spec (s : List Char) :
    ((∃ t, parsePoolType s = .ok t) ↔ (typeMatches s).length = 4) ∧
    (parsePoolType s = .error .invalidPoolType ↔
      (typeMatches s).length ≠ 4) ∧
    (∀ t1 t2 t3, parsePoolType s = .ok (t1, t2, t3) →
      SegShape t1 ∧ SegShape t2 ∧ SegShape t3) := by
  unfold parsePoolType
  by_cases h : (typeMatches s).length = 4
  · rw [dif_pos h]
    refine ⟨by simp [h], by simp [h], ?_⟩
    intro t1 t2 t3 ht
    obtain ⟨e1, e2, e3⟩ := Prod.mk.inj (Except.ok.inj ht) |>.imp id Prod.mk.inj
    refine ⟨?_, ?_, ?_⟩
    · rw [← e1]
      exact scanSegs_shape _ _ _ (List.get_mem _ _ _)
    · rw [← e2]
      exact scanSegs_shape _ _ _ (List.get_mem _ _ _)
    · rw [← e3]
      exact scanSegs_shape _ _ _ (List.get_mem _ _ _)
  · rw [dif_neg h]
    exact ⟨by simp [h], by simp [h], by simp⟩

/-- C7 (witness): the theorem applied to a type string containing exactly
four segments, returning the fully-filled triple of segments 1..3. -/
theorem parsePoolType_spec_witness :
    SegShape "d::e::f".toList ∧ SegShape "g::h::i".toList ∧
      SegShape "j::k::l".toList :=
  (parsePoolType_spec "a::b::c,d::e::f,g::h::i,j::k::l".toList).2.2
    "d::e::f".toList "g::h::i".toList "j::k::l".toList (by rfl)

/-- Modelled from the spec: the decimal-adjusted effective ratio used by
both price conversions of `MathUtil` (`src/lib/math.ts` is not under
`src/`): `price * 10^(decimalsB - decimalsA)`. -/
def effectiveRatio (price : ℚ) (decimalsA decimalsB : ℤ) : ℚ :=
  price * (10 : ℚ) ^ (decimalsB - decimalsA)

/-- Modelled from the spec: `MathUtil.priceToSqrtPriceX64`
(`src/lib/math.ts` is not under `src/`): fails with `InvalidPrice` if
`price ≤ 0`, otherwise returns `floor(sqrt(effective ratio) * 2^64)`,
which for a rational ratio `r` equals `Nat.sqrt ⌊r * 2^128⌋` (see
`priceToSqrtPriceX64_eq_floor_real_sqrt`). -/
def priceToSqrtPriceX64 (price : ℚ) (decimalsA decimalsB : ℤ) :
    Except SdkError ℕ :=
  if price ≤ 0 then .error .invalidPrice
  else .ok (Nat.sqrt (⌊effectiveRatio price decimalsA decimalsB * 2 ^ 128⌋).toNat)

/-- Modelled from the spec: `MathUtil.priceToTickIndex` (`src/lib/math.ts`
is not under `src/`) computes `floor(log(effective ratio)/log(1.0001))`;
an integer `tick` is that floor exactly when
`1.0001^tick ≤ ratio < 1.0001^(tick+1)`, which characterizes the function
without real logarithms. -/
def isTickIndexFor (price : ℚ) (decimalsA decimalsB : ℤ) (tick : ℤ) : Prop :=
  (10001 / 10000 : ℚ) ^ tick ≤ effectiveRatio price decimalsA decimalsB ∧
  effectiveRatio price decimalsA decimalsB < (10001 / 10000 : ℚ) ^ (tick + 1)

lemma floor_real_sqrt_eq_natSqrt_floor (y : ℝ) (hy : 0 ≤ y) :
    ⌊Real.sqrt y⌋ = (Nat.sqrt ⌊y⌋₊ : ℤ) := by
  have h1 : ((Nat.sqrt ⌊y⌋₊ : ℝ)) ≤ Real.sqrt y := by
    rw [show ((Nat.sqrt ⌊y⌋₊ : ℝ)) = ((Nat.sqrt ⌊y⌋₊ : ℕ) : ℝ) by norm_num]
    rw [Real.le_sqrt (by positivity) hy]
    calc ((Nat.sqrt ⌊y⌋₊ : ℕ) : ℝ) ^ 2 = ((Nat.sqrt ⌊y⌋₊ ^ 2 : ℕ) : ℝ) := by
          push_cast
          ring
      _ ≤ (⌊y⌋₊ : ℝ) := by
          exact_mod_cast Nat.cast_le.mpr (Nat.sqrt_le' ⌊y⌋₊)
      _ ≤ y := Nat.floor_le hy
  have h2 : Real.sqrt y < (Nat.sqrt ⌊y⌋₊ : ℝ) + 1 := by
    have hfl : y < ((⌊y⌋₊ + 1 : ℕ) : ℝ) := by
      exact_mod_cast Nat.lt_floor_add_one y
    have hsq : (⌊y⌋₊ + 1 : ℕ) ≤ (Nat.sqrt ⌊y⌋₊ + 1) ^ 2 :=
      Nat.succ_le_of_lt (Nat.lt_succ_sqrt' ⌊y⌋₊)
    have : y < ((Nat.sqrt ⌊y⌋₊ + 1 : ℕ) : ℝ) ^ 2 := by
      calc y < ((⌊y⌋₊ + 1 : ℕ) : ℝ) := hfl
        _ ≤ ((Nat.sqrt ⌊y⌋₊ + 1 : ℕ) : ℝ) ^ 2 := by
            rw [show (((Nat.sqrt ⌊y⌋₊ + 1 : ℕ) : ℝ)) ^ 2 =
              (((Nat.sqrt ⌊y⌋₊ + 1) ^ 2 : ℕ) : ℝ) by push_cast; ring]
            exact_mod_cast Nat.cast_le.mpr hsq
    have hlt := (Real.sqrt_lt'
      (show (0 : ℝ) < ((Nat.sqrt ⌊y⌋₊ + 1 : ℕ) : ℝ) by
        exact_mod_cast Nat.succ_pos _)).mpr this
    calc Real.sqrt y < ((Nat.sqrt ⌊y⌋₊ + 1 : ℕ) : ℝ) := hlt
      _ = (Nat.sqrt ⌊y⌋₊ : ℝ) + 1 := by push_cast; ring
  rw [Int.floor_eq_iff]
  constructor
  · exact_mod_cast h1
  · push_cast
    exact_mod_cast h2

/-- The `Nat.sqrt`-based model computes exactly the spec's
`floor(sqrt(ratio) * 2^64)` (over the reals) for every nonnegative
rational ratio. -/
lemma priceToSqrtPriceX64_eq_floor_real_sqrt (r : ℚ) (hr : 0 ≤ r) :
    (Nat.sqrt (⌊r * 2 ^ 128⌋).toNat : ℤ) =
      ⌊Real.sqrt (r : ℝ) * 2 ^ 64⌋ := by
  have hscale : Real.sqrt (r : ℝ) * 2 ^ 64 = Real.sqrt ((r : ℝ) * 2 ^ 128) := by
    rw [show ((2 : ℝ) ^ 128) = ((2 : ℝ) ^ 64) ^ 2 by norm_num]
    rw [Real.sqrt_mul (by exact_mod_cast hr), Real.sqrt_sq (by positivity)]
  rw [hscale, floor_real_sqrt_eq_natSqrt_floor _ (by positivity)]
  congr 2
  rw [← Int.floor_toNat ((r : ℝ) * 2 ^ 128)]
  congr 1
  rw [show ((r : ℝ) * 2 ^ 128) = ((r * 2 ^ 128 : ℚ) : ℝ) by push_cast; ring]
  rw [Rat.floor_cast]

/-- C8: for a fixed pair of token decimals, both price conversions are
monotone: if `0 < price1 < price2` then the sqrt-price returned by
`priceToSqrtPriceX64` does not decrease, and neither does the tick index
`floor(log(ratio)/log(1.0001))` computed by `priceToTickIndex`
(characterized by `isTickIndexFor`). -/
theorem priceConversions_monotone (p1 p2 : ℚ) (dA dB : ℤ)
    (t1 t2 : ℤ) (v1 v2 : ℕ)
    (hp1 : 0 < p1) (h12 : p1 < p2)
    (hs1 : priceToSqrtPriceX64 p1 dA dB = .ok v1)
    (hs2 : priceToSqrtPriceX64 p2 dA dB = .ok v2)
    (ht1 : isTickIndexFor p1 dA dB t1)
    (ht2 : isTickIndexFor p2 dA dB t2) :
    v1 ≤ v2 ∧ t1 ≤ t2 := by
  have hpow : (0 : ℚ) < (10 : ℚ) ^ (dB - dA) := zpow_pos (by norm_num) _
  have hr : effectiveRatio p1 dA dB < effectiveRatio p2 dA dB := by
    unfold effectiveRatio
    exact mul_lt_mul_of_pos_right h12 hpow
  constructor
  · unfold priceToSqrtPriceX64 at hs1 hs2
    rw [if_neg (by linarith)] at hs1
    rw [if_neg (by linarith)] at hs2
    rw [← Except.ok.inj hs1, ← Except.ok.inj hs2]
    apply Nat.sqrt_le_sqrt
    apply Int.toNat_le_toNat
    apply Int.floor_le_floor
    have : (0 : ℚ) < 2 ^ 128 := by positivity
    nlinarith
  · by_contra hcon
    push_neg at hcon
    have hb : (1 : ℚ) ≤ 10001 / 10000 := by norm_num
    have hchain : (10001 / 10000 : ℚ) ^ (t2 + 1) ≤
        (10001 / 10000 : ℚ) ^ t1 :=
      zpow_le_zpow_right₀ hb (by omega)
    have : effectiveRatio p2 dA dB < effectiveRatio p1 dA dB :=
      lt_of_lt_of_le ht2.2 (le_trans hchain ht1.1)
    linarith

/-- C8 (witness): the monotonicity theorem applied at `price1 = 1`,
`price2 = 1.0001` with equal decimals; their tick indices are `0` and `1`
and the sqrt-price values are the model's expressions. -/
theorem priceConversions_monotone_witness :
    Nat.sqrt (⌊effectiveRatio 1 0 0 * 2 ^ 128⌋).toNat ≤
      Nat.sqrt (⌊effectiveRatio (10001 / 10000) 0 0 * 2 ^ 128⌋).toNat ∧
    (0 : ℤ) ≤ 1 :=
  priceConversions_monotone 1 (10001 / 10000) 0 0 0 1
    (Nat.sqrt (⌊effectiveRatio 1 0 0 * 2 ^ 128⌋).toNat)
    (Nat.sqrt (⌊effectiveRatio (10001 / 10000) 0 0 * 2 ^ 128⌋).toNat)
    (by norm_num) (by norm_num)
    (by unfold priceToSqrtPriceX64; rw [if_neg (by norm_num)])
    (by unfold priceToSqrtPriceX64; rw [if_neg (by norm_num)])
    (by
      unfold isTickIndexFor effectiveRatio
      norm_num)
    (by
      unfold isTickIndexFor effectiveRatio
      norm_num)

end Turbos
